import Mathlib

/-!
# finex-go: price level and matching worker

Shallow embedding of `matching/price_level.go` and `workers/engines/matching.go`.

Conventions of the embedding.
* A Go `*Order` held by a price level is a non-nil pointer; it is embedded as the
  `Order` value it points to.  Where the source can receive a nil pointer (the
  `order` field of a decoded action message) the embedding uses `Option Order`.
* `decimal.Decimal` is an exact decimal; its `Add`/`Sub` are exact, so it is
  embedded in `ℚ`.
* A Go slice is a window `(array, len)` on a backing array.  `Remove` re-slices
  and appends in place while a `range` loop is running, so its embedding keeps
  the backing array and the current length apart.
* A run-time panic is the result `none`.
-/

namespace Finex

/-! ## Data model -/

/-- Modelled from the spec: the type `OrderSide` is declared outside the given
sources; the spec gives its two values, buy and sell. -/
inductive OrderSide where
  | buy
  | sell
  deriving DecidableEq, Repr

/-- Modelled from the spec: the struct `Order` is declared outside the given
sources.  The fields are the ones the given code reads (`ID`, `Symbol`) and the
ones the spec lists for the unfilled quantity. -/
structure Order where
  ID : Int
  Symbol : String
  Quantity : ℚ
  FilledQuantity : ℚ
  deriving DecidableEq

/-- Modelled from the spec: the method `Order.UnfilledQuantity` is declared
outside the given sources; the spec defines it as quantity minus filled
quantity. -/
def Order.UnfilledQuantity (o : Order) : ℚ :=
  o.Quantity - o.FilledQuantity

/-- The struct `PriceLevel`. -/
structure PriceLevel where
  Side : OrderSide
  Price : ℚ
  Orders : List Order
  deriving DecidableEq

/-- The constructor `NewPriceLevel`. -/
def NewPriceLevel (side : OrderSide) (price : ℚ) : PriceLevel :=
  { Side := side, Price := price, Orders := [] }

/-! ## `sort.Slice`

`sort.Slice` belongs to the Go standard library.  Its contract is that the
slice is rearranged (a permutation) so that it is sorted for `less`; it is not
stable.  `Add` calls it with `less i j := Orders[i].ID < Orders[j].ID`.  The
development is carried out for every implementation that meets the contract,
and `goSort` is the insertion sort the library runs on short slices. -/

/-- An implementation of `sort.Slice` for the comparison by `ID`. -/
structure SliceSorter where
  run : List Order → List Order
  perm : ∀ l, (run l).Perm l
  sorted : ∀ l, (run l).Pairwise (fun a b => ¬ b.ID < a.ID)

/-- Inner loop of `insertionSortLessFunc`: the element `x` at position `j`
is swapped leftwards while it is less than its left neighbour.  The argument
is the already sorted prefix, nearest neighbour first; so is the result. -/
def sinkLeft (x : Order) : List Order → List Order
  | [] => [x]
  | y :: ys => if x.ID < y.ID then y :: sinkLeft x ys else x :: y :: ys

/-- The function `insertionSortLessFunc` of package `sort` on a whole slice. -/
def insertionSortLessFunc (l : List Order) : List Order :=
  (l.foldl (fun done x => sinkLeft x done) []).reverse

/-- The insertion sort of package `sort`, with the proof that it meets the
contract of `sort.Slice`. -/
def goSort : SliceSorter where
  run := insertionSortLessFunc
  perm := fun l => by
    have hsink : ∀ (x : Order) (ys : List Order), (sinkLeft x ys).Perm (x :: ys) := by
      intro x ys
      induction ys with
      | nil => simp [sinkLeft]
      | cons y ys ih =>
        unfold sinkLeft
        split
        · exact (List.Perm.cons y ih).trans (List.Perm.swap x y ys)
        · exact List.Perm.refl _
    have hfold : ∀ (xs done : List Order),
        (xs.foldl (fun done x => sinkLeft x done) done).Perm (xs ++ done) := by
      intro xs
      induction xs with
      | nil => intro done; simp
      | cons x xs ih =>
        intro done
        simp only [List.foldl_cons]
        refine (ih _).trans ?_
        refine (List.Perm.append_left xs (hsink x done)).trans ?_
        exact List.perm_middle
    unfold insertionSortLessFunc
    refine (List.reverse_perm _).trans ?_
    simpa using hfold l []
  sorted := fun l => by
    have hsink : ∀ (x : Order) (ys : List Order), (sinkLeft x ys).Perm (x :: ys) := by
      intro x ys
      induction ys with
      | nil => simp [sinkLeft]
      | cons y ys ih =>
        unfold sinkLeft
        split
        · exact (List.Perm.cons y ih).trans (List.Perm.swap x y ys)
        · exact List.Perm.refl _
    have hdesc : ∀ (x : Order) (ys : List Order),
        ys.Pairwise (fun a b => ¬ a.ID < b.ID) →
        (sinkLeft x ys).Pairwise (fun a b => ¬ a.ID < b.ID) := by
      intro x ys
      induction ys with
      | nil => intro _; simp [sinkLeft]
      | cons y ys ih =>
        intro h
        rw [List.pairwise_cons] at h
        unfold sinkLeft
        split
        · rename_i hlt
          rw [List.pairwise_cons]
          refine ⟨?_, ih h.2⟩
          intro z hz
          have hz2 : z ∈ x :: ys := (hsink x ys).mem_iff.mp hz
          rcases List.mem_cons.mp hz2 with rfl | hz3
          · omega
          · exact h.1 z hz3
        · rename_i hge
          rw [List.pairwise_cons]
          refine ⟨?_, List.pairwise_cons.mpr h⟩
          intro z hz
          rcases List.mem_cons.mp hz with rfl | hz3
          · exact hge
          · have := h.1 z hz3
            omega
    have hfold : ∀ (xs done : List Order),
        done.Pairwise (fun a b => ¬ a.ID < b.ID) →
        (xs.foldl (fun done x => sinkLeft x done) done).Pairwise
          (fun a b => ¬ a.ID < b.ID) := by
      intro xs
      induction xs with
      | nil => intro done h; simpa using h
      | cons x xs ih =>
        intro done h
        simp only [List.foldl_cons]
        exact ih _ (hdesc x done h)
    unfold insertionSortLessFunc
    rw [List.pairwise_reverse]
    exact hfold l [] List.Pairwise.nil

/-! ## Price level operations -/

/-- The method `PriceLevel.Add`: return at the first entry with the same `ID`,
otherwise append and sort the slice by `ID`. -/
def PriceLevel.Add (S : SliceSorter) (p : PriceLevel) (order : Order) : PriceLevel :=
  if p.Orders.any (fun o => decide (o.ID = order.ID)) then p
  else { p with Orders := S.run (p.Orders ++ [order]) }

/-- The method `PriceLevel.Empty`. -/
def PriceLevel.Empty (p : PriceLevel) : Bool :=
  p.Orders.length == 0

/-- The method `PriceLevel.Top`; `none` is the nil pointer. -/
def PriceLevel.Top (p : PriceLevel) : Option Order :=
  if p.Empty then none else p.Orders[0]?

/-- The method `PriceLevel.Size`. -/
def PriceLevel.Size (p : PriceLevel) : Nat :=
  p.Orders.length

/-- The method `PriceLevel.Total`: the running sum starting at `decimal.Zero`. -/
def PriceLevel.Total (p : PriceLevel) : ℚ :=
  p.Orders.foldl (fun total order => total + order.UnfilledQuantity) 0

/-- The statement `p.Orders = append(p.Orders[:index], p.Orders[index+1:]...)`
on the backing array `arr` with `p.Orders` of length `len`.  The slice
expression `p.Orders[index+1:]` panics when `index+1 > len`.  Otherwise the
entries `index+1 .. len-1` are moved one place down inside the backing array,
the entry at `len-1` and above is left as it was, and the length drops by one. -/
def spliceOut (arr : List Order) (len index : Nat) : Option (List Order × Nat) :=
  if index + 1 ≤ len then
    some (arr.take index ++ (arr.drop (index + 1)).take (len - (index + 1)) ++ arr.drop (len - 1),
          len - 1)
  else none

/-- The `range` loop of `PriceLevel.Remove`.  The range expression is evaluated
once, so the loop visits the indices `index, index+1, ...` for `steps` more
rounds and reads the entry from the backing array as it then is. -/
def removeLoop (id : Int) : Nat → Nat → List Order × Nat → Option (List Order × Nat)
  | 0, _, st => some st
  | steps + 1, index, (arr, len) =>
    match arr[index]? with
    | none => none
    | some o =>
      if o.ID = id then
        match spliceOut arr len index with
        | none => none
        | some st => removeLoop id steps (index + 1) st
      else removeLoop id steps (index + 1) (arr, len)

/-- The method `PriceLevel.Remove`; `none` is a run-time panic. -/
def PriceLevel.Remove (p : PriceLevel) (order : Order) : Option PriceLevel :=
  match removeLoop order.ID p.Orders.length 0 (p.Orders, p.Orders.length) with
  | none => none
  | some (arr, len) => some { p with Orders := arr.take len }

/-- One call on a price level. -/
inductive LevelOp where
  | add (order : Order)
  | remove (order : Order)

/-- A finite sequence of `Add` and `Remove` calls, run from left to right. -/
def runOps (S : SliceSorter) : PriceLevel → List LevelOp → Option PriceLevel
  | p, [] => some p
  | p, LevelOp.add o :: rest => runOps S (p.Add S o) rest
  | p, LevelOp.remove o :: rest =>
    match p.Remove o with
    | none => none
    | some q => runOps S q rest

/-- The orders of a level are strictly ascending by `ID`. -/
def StrictAsc (l : List Order) : Prop :=
  l.Pairwise (fun a b => a.ID < b.ID)

instance (l : List Order) : Decidable (StrictAsc l) := by
  unfold StrictAsc; infer_instance

/-- The insertion index a binary search by `ID` finds in a sorted sequence: the
first position whose entry has an `ID` not below `id`, or the length when
there is none. -/
def searchIndex (l : List Order) (id : Int) : Nat :=
  l.findIdx (fun x => decide (id ≤ x.ID))

/-- Positional insertion, following the words of the spec: find the insertion
index by `ID`; when the entry there already carries the `ID` the level is left
as it is, otherwise the order is put in at that index. -/
def PriceLevel.AddPositional (p : PriceLevel) (order : Order) : PriceLevel :=
  match p.Orders[searchIndex p.Orders order.ID]? with
  | some x =>
    if x.ID = order.ID then p
    else { p with Orders := p.Orders.take (searchIndex p.Orders order.ID) ++
             order :: p.Orders.drop (searchIndex p.Orders order.ID) }
  | none => { p with Orders := p.Orders.take (searchIndex p.Orders order.ID) ++
             order :: p.Orders.drop (searchIndex p.Orders order.ID) }

/-! ## Matching worker

The worker keeps `Engines`, a Go map from market symbol to `*Engine`.  Engine
objects live on the heap: `heap` gives the object at an address, `next` is the
first unused address.  The map is a reference, so every copy of the worker
(the methods have value receivers) sees the same `Engines`.  `calls` records,
oldest first, every call of an engine's `Submit` or `Cancel`.  Logging through
`Info` and `Infof` has no effect on this state and is left out. -/

/-- Modelled from the spec: the type `PayloadAction` is declared outside the
given sources; the spec gives the action tags as strings. -/
abbrev PayloadAction := String

/-- Modelled from the spec: the constant `ActionSubmit`, tag `submit`. -/
def ActionSubmit : PayloadAction := "submit"

/-- Modelled from the spec: the constant `ActionCancel`, tag `cancel`. -/
def ActionCancel : PayloadAction := "cancel"

/-- Modelled from the spec: the constant `ActionReload`, tag `reload`. -/
def ActionReload : PayloadAction := "reload"

/-- Modelled from the spec: the struct `Engine` is declared outside the given
sources.  `Market` and `Initialized` are the fields the given code reads and
writes; `Book` stands for the two order books, of a type `B` left open. -/
structure Engine (B : Type) where
  Market : String
  Initialized : Bool
  Book : B

/-- The methods of `Engine` that the given code calls and that are declared
outside the given sources, and the books of a new engine. -/
structure EngineOps (B : Type) where
  emptyBook : B
  Submit : Engine B → Order → Engine B
  Cancel : Engine B → Order → Engine B

/-- Modelled from the spec: the constructor `NewEngine` is declared outside the
given sources; the spec has it return a cold engine (`Initialized` false) with
empty books. -/
def NewEngine {B : Type} (E : EngineOps B) (market : String) (_fee : ℚ) : Engine B :=
  { Market := market, Initialized := false, Book := E.emptyBook }

/-- A call of an engine method, with the address of the engine. -/
inductive EngineCall where
  | submit (engine : Nat) (order : Order)
  | cancel (engine : Nat) (order : Order)
  deriving DecidableEq

/-- The struct `MatchingWorker` with the heap its engine pointers refer to.
`Engines market = none` is the nil pointer a map read gives for a market that
is absent (or mapped to nil). -/
structure MatchingWorker (B : Type) where
  Engines : String → Option Nat
  heap : Nat → Engine B
  next : Nat
  calls : List EngineCall

/-- The struct `MatchingPayloadMessage`; `Order = none` is the nil pointer left
by a message without an order. -/
structure MatchingPayloadMessage where
  Action : PayloadAction
  Order : Option Order
  Market : String

/-- The database reads of the given code (`config.DataBase` is declared outside
the given sources): the symbols of the enabled markets, and per market the
waiting orders by ascending id, already converted by `ToMatchingAttributes`. -/
structure Store where
  enabledMarkets : List String
  waitingOrders : String → List Order

/-- How a call ends: it returns an error value (`none` is nil) in a new state,
it panics, or the logger's `Fatalf` writes the message and ends the process. -/
inductive Outcome (σ : Type) where
  | returned (err : Option String) (st : σ)
  | panicked
  | fatal (msg : String)

/-- The call `engine.Submit(order)` on the engine at address `a`. -/
def callSubmit {B : Type} (E : EngineOps B) (w : MatchingWorker B) (a : Nat) (order : Order) :
    MatchingWorker B :=
  { w with heap := Function.update w.heap a (E.Submit (w.heap a) order),
           calls := w.calls ++ [EngineCall.submit a order] }

/-- The call `engine.Cancel(order)` on the engine at address `a`. -/
def callCancel {B : Type} (E : EngineOps B) (w : MatchingWorker B) (a : Nat) (order : Order) :
    MatchingWorker B :=
  { w with heap := Function.update w.heap a (E.Cancel (w.heap a) order),
           calls := w.calls ++ [EngineCall.cancel a order] }

/-- The method `MatchingWorker.SubmitOrder`.  `order.Symbol` is read first, so
a nil `order` panics. -/
def MatchingWorker.SubmitOrder {B : Type} (E : EngineOps B) (w : MatchingWorker B)
    (order : Option Order) : Outcome (MatchingWorker B) :=
  match order with
  | none => Outcome.panicked
  | some o =>
    match w.Engines o.Symbol with
    | none => Outcome.returned (some "engine not found") w
    | some a =>
      if !(w.heap a).Initialized then Outcome.returned (some "engine is not ready") w
      else Outcome.returned none (callSubmit E w a o)

/-- The method `MatchingWorker.CancelOrder`. -/
def MatchingWorker.CancelOrder {B : Type} (E : EngineOps B) (w : MatchingWorker B)
    (order : Option Order) : Outcome (MatchingWorker B) :=
  match order with
  | none => Outcome.panicked
  | some o =>
    match w.Engines o.Symbol with
    | none => Outcome.returned (some "engine not found") w
    | some a =>
      if !(w.heap a).Initialized then Outcome.returned (some "engine is not ready") w
      else Outcome.returned none (callCancel E w a o)

/-- The method `MatchingWorker.GetEngineByMarket`. -/
def MatchingWorker.GetEngineByMarket {B : Type} (w : MatchingWorker B) (market : String) :
    Option Nat :=
  w.Engines market

/-- First two statements of `InitializeEngine`: a new engine is allocated and
stored in `Engines[market]`.  The result is the state and the new address. -/
def installNewEngine {B : Type} (E : EngineOps B) (w : MatchingWorker B) (market : String) :
    MatchingWorker B × Nat :=
  ({ w with heap := Function.update w.heap w.next (NewEngine E market 0),
            next := w.next + 1,
            Engines := Function.update w.Engines market (some w.next) }, w.next)

/-- The method `MatchingWorker.LoadOrders` on the engine at address `a`. -/
def MatchingWorker.LoadOrders {B : Type} (E : EngineOps B) (db : Store) (w : MatchingWorker B)
    (a : Nat) : MatchingWorker B :=
  (db.waitingOrders (w.heap a).Market).foldl (fun st order => callSubmit E st a order) w

/-- The statement `engine.Initialized = true` on the engine at address `a`. -/
def markInitialized {B : Type} (w : MatchingWorker B) (a : Nat) : MatchingWorker B :=
  { w with heap := Function.update w.heap a { w.heap a with Initialized := true } }

/-- The method `MatchingWorker.InitializeEngine`. -/
def MatchingWorker.InitializeEngine {B : Type} (E : EngineOps B) (db : Store)
    (w : MatchingWorker B) (market : String) : MatchingWorker B :=
  let st := installNewEngine E w market
  markInitialized (MatchingWorker.LoadOrders E db st.1 st.2) st.2

/-- The method `MatchingWorker.Reload`. -/
def MatchingWorker.Reload {B : Type} (E : EngineOps B) (db : Store) (w : MatchingWorker B)
    (market : String) : MatchingWorker B :=
  if market = "all" then
    db.enabledMarkets.foldl (fun st m => MatchingWorker.InitializeEngine E db st m) w
  else MatchingWorker.InitializeEngine E db w market

/-- The method `MatchingWorker.Process`.  `unmarshal` is `json.Unmarshal` into
a `MatchingPayloadMessage`, of the standard library. -/
def MatchingWorker.Process {B : Type} (E : EngineOps B) (db : Store)
    (unmarshal : List UInt8 → Except String MatchingPayloadMessage)
    (w : MatchingWorker B) (payload : List UInt8) : Outcome (MatchingWorker B) :=
  match unmarshal payload with
  | Except.error err => Outcome.returned (some err) w
  | Except.ok msg =>
    if msg.Action = ActionSubmit then MatchingWorker.SubmitOrder E w msg.Order
    else if msg.Action = ActionCancel then MatchingWorker.CancelOrder E w msg.Order
    else if msg.Action = ActionReload then
      Outcome.returned none (MatchingWorker.Reload E db w msg.Market)
    else Outcome.fatal ("Unknown action: " ++ msg.Action)

/-- The address of the engine a call went to. -/
def EngineCall.target : EngineCall → Nat
  | EngineCall.submit a _ => a
  | EngineCall.cancel a _ => a

/-- Every engine pointer held in `Engines` points to an allocated object.  A Go
allocation never returns the address of a live object; in the embedding that
is the case when the addresses in use lie below `next`. -/
def MatchingWorker.WellFormed {B : Type} (w : MatchingWorker B) : Prop :=
  ∀ m a, w.Engines m = some a → a < w.next

/-- First statement of `InitializeEngine` alone, `engine := NewEngine(market,
decimal.Zero)`: the new engine is allocated at address `next`, the map is as
it was. -/
def allocNewEngine {B : Type} (E : EngineOps B) (w : MatchingWorker B) (market : String) :
    MatchingWorker B :=
  { w with heap := Function.update w.heap w.next (NewEngine E market 0),
           next := w.next + 1 }

/-- The states of `LoadOrders` on the engine at address `a`: the state it
starts in, then the state after each `engine.Submit(order)` of the loop. -/
def replayStates {B : Type} (E : EngineOps B) (db : Store) (w : MatchingWorker B) (a : Nat) :
    List (MatchingWorker B) :=
  (db.waitingOrders (w.heap a).Market).scanl (fun st order => callSubmit E st a order) w

/-- The points inside `InitializeEngine(market)`, each statement taken as one
step: after the new engine is allocated, after it is stored in `Engines`, and
after each replayed order.  The next step, `engine.Initialized = true`, ends
the method in the state `InitializeEngine` returns. -/
def InitializeEnginePoints {B : Type} (E : EngineOps B) (db : Store) (w : MatchingWorker B)
    (market : String) : List (MatchingWorker B) :=
  allocNewEngine E w market :: replayStates E db (installNewEngine E w market).1 w.next

/-- A sample database with two waiting orders for `btcusd`. -/
def sampleBacklog : Store :=
  { enabledMarkets := ["btcusd"],
    waitingOrders := fun m =>
      if m = "btcusd" then
        [{ ID := 1, Symbol := "btcusd", Quantity := 1, FilledQuantity := 0 },
         { ID := 2, Symbol := "btcusd", Quantity := 1, FilledQuantity := 0 }]
      else [] }

/-- Sample engine methods on books that are lists of orders: `Submit` puts the
order in front, `Cancel` takes the orders with its `ID` out. -/
def sampleOps : EngineOps (List Order) :=
  { emptyBook := [],
    Submit := fun e o => { e with Book := o :: e.Book },
    Cancel := fun e o => { e with Book := e.Book.filter (fun x => decide (x.ID ≠ o.ID)) } }

/-- A sample database: no enabled market, no waiting order. -/
def sampleStore : Store :=
  { enabledMarkets := [], waitingOrders := fun _ => [] }

/-- A sample worker: market `btcusd` has a ready engine at address 0, market
`ethusd` has a cold engine at address 1, no other market is registered. -/
def sampleWorker : MatchingWorker (List Order) :=
  { Engines := fun m => if m = "btcusd" then some 0 else if m = "ethusd" then some 1 else none,
    heap := fun a =>
      if a = 0 then { Market := "btcusd", Initialized := true, Book := [] }
      else { Market := "ethusd", Initialized := false, Book := [] },
    next := 2,
    calls := [] }

/-- A sample decoder: every payload decodes to the given message. -/
def decodesTo (msg : MatchingPayloadMessage) : List UInt8 → Except String MatchingPayloadMessage :=
  fun _ => Except.ok msg

/-- A sample order on market `btcusd` with quantity 1, nothing filled. -/
def sampleOrder (id : Int) : Order :=
  { ID := id, Symbol := "btcusd", Quantity := 1, FilledQuantity := 0 }

/-- A sample buy level at price 100 holding sample orders with the given IDs,
in the given sequence. -/
def sampleLevel (ids : List Int) : PriceLevel :=
  { Side := OrderSide.buy, Price := 100, Orders := ids.map sampleOrder }

/-! ## Lemmas on the `Remove` loop -/

theorem removeLoop_skip (id : Int) (steps index : Nat) (arr : List Order) (len : Nat)
    (h : ∀ j, index ≤ j → j < index + steps → ∃ o, arr[j]? = some o ∧ o.ID ≠ id) :
    removeLoop id steps index (arr, len) = some (arr, len) := by
  induction steps generalizing index with
  | zero => rfl
  | succ k ih =>
    obtain ⟨o, ho, hne⟩ := h index (Nat.le_refl _) (by omega)
    simp only [removeLoop, ho, if_neg hne]
    exact ih (index + 1) (fun j h1 h2 => h j (by omega) (by omega))

theorem removeLoop_add (id : Int) (a b index : Nat) (st : List Order × Nat) :
    removeLoop id (a + b) index st =
      (removeLoop id a index st).bind (removeLoop id b (index + a)) := by
  induction a generalizing index st with
  | zero => simp [removeLoop]
  | succ k ih =>
    obtain ⟨arr, len⟩ := st
    have e : k + 1 + b = (k + b) + 1 := by omega
    rw [e]
    simp only [removeLoop]
    have e2 : index + (k + 1) = index + 1 + k := by omega
    rw [e2]
    cases hget : arr[index]? with
    | none => simp
    | some o =>
      simp only []
      by_cases hid : o.ID = id
      · simp only [if_pos hid]
        cases hsp : spliceOut arr len index with
        | none => simp
        | some st2 => simpa using ih (index + 1) st2
      · simp only [if_neg hid]
        exact ih (index + 1) (arr, len)

theorem spliceOut_split (pre post : List Order) (x : Order) :
    spliceOut (pre ++ x :: post) (pre.length + (post.length + 1)) pre.length =
      some (pre ++ (post ++ (x :: post).drop post.length), pre.length + post.length) := by
  have h1 : pre.length + 1 ≤ pre.length + (post.length + 1) := by omega
  have h2 : pre.length + (post.length + 1) - (pre.length + 1) = post.length := by omega
  have h3 : pre.length + (post.length + 1) - 1 = pre.length + post.length := by omega
  have h4 : (pre ++ x :: post).drop (pre.length + 1) = post := by
    rw [List.drop_append]; simp
  have h5 : (pre ++ x :: post).drop (pre.length + post.length) = (x :: post).drop post.length := by
    rw [List.drop_append]
  unfold spliceOut
  rw [if_pos h1, h2, h3, h4, h5, List.take_left, List.take_length, List.append_assoc]

theorem tail_no_match (id : Int) (post : List Order) (x : Order)
    (hpost : ∀ y ∈ post, y.ID ≠ id) (hne : post ≠ []) :
    ∀ y ∈ post ++ (x :: post).drop post.length, y.ID ≠ id := by
  intro y hy
  rcases List.mem_append.mp hy with h | h
  · exact hpost y h
  · cases post with
    | nil => exact absurd rfl hne
    | cons z zs =>
      have : y ∈ z :: zs := by
        have h6 : (x :: z :: zs).drop (z :: zs).length = (z :: zs).drop zs.length := by
          simp
        rw [h6] at h
        exact List.mem_of_mem_drop h
      exact hpost y this

theorem removeLoop_single (id : Int) (pre post : List Order) (x : Order)
    (hx : x.ID = id) (hpre : ∀ y ∈ pre, y.ID ≠ id) (hpost : ∀ y ∈ post, y.ID ≠ id) :
    removeLoop id (pre.length + (post.length + 1)) 0
        (pre ++ x :: post, pre.length + (post.length + 1)) =
      some (pre ++ (post ++ (x :: post).drop post.length), pre.length + post.length) := by
  rw [removeLoop_add]
  rw [removeLoop_skip id pre.length 0 (pre ++ x :: post)]
  · simp only [Option.some_bind, Nat.zero_add]
    have hget : (pre ++ x :: post)[pre.length]? = some x := by
      rw [List.getElem?_append_right (Nat.le_refl _)]; simp
    simp only [removeLoop, hget, if_pos hx, spliceOut_split]
    by_cases hne : post = []
    · subst hne
      simp [removeLoop]
    · apply removeLoop_skip
      intro j h1 h2
      have hlen : (post ++ (x :: post).drop post.length).length = post.length + 1 := by simp
      have hj : j - pre.length < (post ++ (x :: post).drop post.length).length := by omega
      refine ⟨(post ++ (x :: post).drop post.length)[j - pre.length], ?_, ?_⟩
      · rw [List.getElem?_append_right (by omega)]
        exact List.getElem?_eq_getElem hj
      · exact tail_no_match id post x hpost hne _ (List.getElem_mem _)
  · intro j _ h2
    have hj : j < pre.length := by omega
    refine ⟨pre[j], ?_, hpre _ (List.getElem_mem _)⟩
    rw [List.getElem?_append_left hj]
    exact List.getElem?_eq_getElem hj

/-! ## Lemmas on `Add`, `Remove`, `Total` -/

theorem Add_of_present (S : SliceSorter) (p : PriceLevel) (o : Order)
    (h : ∃ x ∈ p.Orders, x.ID = o.ID) : p.Add S o = p := by
  have : p.Orders.any (fun x => decide (x.ID = o.ID)) = true := by
    simpa [List.any_eq_true] using h
  simp [PriceLevel.Add, this]

theorem Add_of_absent (S : SliceSorter) (p : PriceLevel) (o : Order)
    (h : ∀ x ∈ p.Orders, x.ID ≠ o.ID) :
    p.Add S o = { p with Orders := S.run (p.Orders ++ [o]) } := by
  have : ¬ (p.Orders.any (fun x => decide (x.ID = o.ID)) = true) := by
    simpa [List.any_eq_true] using h
  simp [PriceLevel.Add, this]

theorem Add_present_after (S : SliceSorter) (p : PriceLevel) (o : Order) :
    ∃ x ∈ (p.Add S o).Orders, x.ID = o.ID := by
  by_cases h : ∃ x ∈ p.Orders, x.ID = o.ID
  · rw [Add_of_present S p o h]; exact h
  · have h2 : ∀ x ∈ p.Orders, x.ID ≠ o.ID := fun x hx e => h ⟨x, hx, e⟩
    rw [Add_of_absent S p o h2]
    exact ⟨o, (S.perm _).mem_iff.mpr (by simp), rfl⟩

theorem foldl_total (l : List Order) (a : ℚ) :
    l.foldl (fun total order => total + order.UnfilledQuantity) a =
      a + (l.map Order.UnfilledQuantity).sum := by
  induction l generalizing a with
  | nil => simp
  | cons x xs ih => simp only [List.foldl_cons, ih, List.map_cons, List.sum_cons]; ring

theorem Total_eq_sum (p : PriceLevel) :
    p.Total = (p.Orders.map Order.UnfilledQuantity).sum := by
  simp [PriceLevel.Total, foldl_total]

theorem Add_strictAsc (S : SliceSorter) (p : PriceLevel) (o : Order)
    (h : StrictAsc p.Orders) : StrictAsc (p.Add S o).Orders := by
  by_cases hp : ∃ x ∈ p.Orders, x.ID = o.ID
  · rw [Add_of_present S p o hp]; exact h
  · have h2 : ∀ x ∈ p.Orders, x.ID ≠ o.ID := fun x hx e => hp ⟨x, hx, e⟩
    rw [Add_of_absent S p o h2]
    have hnd : (p.Orders ++ [o]).Pairwise (fun a b => a.ID ≠ b.ID) := by
      rw [List.pairwise_append]
      refine ⟨h.imp (fun hab => by omega), by simp, ?_⟩
      intro a ha b hb
      rw [List.mem_singleton] at hb
      subst hb
      exact h2 a ha
    have hnd2 : (S.run (p.Orders ++ [o])).Pairwise (fun a b => a.ID ≠ b.ID) :=
      (S.perm (p.Orders ++ [o])).symm.pairwise hnd (fun hab e => hab e.symm)
    exact ((S.sorted (p.Orders ++ [o])).and hnd2).imp (fun hab => by omega)

theorem Remove_absent (p : PriceLevel) (o : Order) (h : ∀ x ∈ p.Orders, x.ID ≠ o.ID) :
    p.Remove o = some p := by
  have hl : removeLoop o.ID p.Orders.length 0 (p.Orders, p.Orders.length) =
      some (p.Orders, p.Orders.length) := by
    apply removeLoop_skip
    intro j _ h2
    have hj : j < p.Orders.length := by omega
    exact ⟨p.Orders[j], List.getElem?_eq_getElem hj, h _ (List.getElem_mem _)⟩
  simp [PriceLevel.Remove, hl]

theorem Remove_split (p : PriceLevel) (o x : Order) (pre post : List Order)
    (hs : p.Orders = pre ++ x :: post) (hx : x.ID = o.ID)
    (hpre : ∀ y ∈ pre, y.ID ≠ o.ID) (hpost : ∀ y ∈ post, y.ID ≠ o.ID) :
    p.Remove o = some { p with Orders := pre ++ post } := by
  have hn : p.Orders.length = pre.length + (post.length + 1) := by simp [hs]
  unfold PriceLevel.Remove
  rw [hn, hs, removeLoop_single o.ID pre post x hx hpre hpost]
  simp only [← List.append_assoc]
  rw [← List.length_append, List.take_left]

theorem strictAsc_split (l : List Order) (id : Int) (h : StrictAsc l)
    (hm : ∃ x ∈ l, x.ID = id) :
    ∃ pre x post, l = pre ++ x :: post ∧ x.ID = id ∧
      (∀ y ∈ pre, y.ID ≠ id) ∧ (∀ y ∈ post, y.ID ≠ id) := by
  obtain ⟨x, hx, hid⟩ := hm
  obtain ⟨pre, post, rfl⟩ := List.append_of_mem hx
  refine ⟨pre, x, post, rfl, hid, ?_, ?_⟩
  · intro y hy
    have := (List.pairwise_append.mp h).2.2 y hy x (by simp)
    omega
  · intro y hy
    have := (List.pairwise_cons.mp (List.pairwise_append.mp h).2.1).1 y hy
    omega

theorem Remove_strictAsc (p : PriceLevel) (o : Order) (h : StrictAsc p.Orders) :
    ∃ q, p.Remove o = some q ∧ StrictAsc q.Orders := by
  by_cases hp : ∃ x ∈ p.Orders, x.ID = o.ID
  · obtain ⟨pre, x, post, hs, hx, hpre, hpost⟩ := strictAsc_split p.Orders o.ID h hp
    refine ⟨_, Remove_split p o x pre post hs hx hpre hpost, ?_⟩
    have hsub : (pre ++ post).Sublist (pre ++ x :: post) :=
      List.Sublist.append_left (List.sublist_cons_self x post) pre
    unfold StrictAsc at h
    rw [hs] at h
    exact h.sublist hsub
  · have h2 : ∀ x ∈ p.Orders, x.ID ≠ o.ID := fun x hx e => hp ⟨x, hx, e⟩
    exact ⟨p, Remove_absent p o h2, h⟩

theorem runOps_strictAsc (S : SliceSorter) (p : PriceLevel) (ops : List LevelOp)
    (h : StrictAsc p.Orders) : ∃ q, runOps S p ops = some q ∧ StrictAsc q.Orders := by
  induction ops generalizing p with
  | nil => exact ⟨p, rfl, h⟩
  | cons op rest ih =>
    cases op with
    | add o => exact ih (p.Add S o) (Add_strictAsc S p o h)
    | remove o =>
      obtain ⟨q, hq, hs⟩ := Remove_strictAsc p o h
      obtain ⟨r, hr, hrs⟩ := ih q hs
      exact ⟨r, by simp [runOps, hq, hr], hrs⟩

/-! ## Lemmas on sorted sequences and the insertion index -/

theorem strictAsc_perm_unique {l1 l2 : List Order} (hp : l1.Perm l2)
    (h1 : StrictAsc l1) (h2 : StrictAsc l2) : l1 = l2 := by
  haveI : IsAntisymm Order (fun a b => a.ID < b.ID) :=
    ⟨fun a b hab hba => absurd hab (by omega)⟩
  exact List.eq_of_perm_of_sorted hp h1 h2

theorem Add_perm_absent (S : SliceSorter) (p : PriceLevel) (o : Order)
    (h : ∀ x ∈ p.Orders, x.ID ≠ o.ID) : (p.Add S o).Orders.Perm (o :: p.Orders) := by
  rw [Add_of_absent S p o h]
  exact (S.perm _).trans (List.perm_append_singleton o p.Orders)

theorem present_after_Add_iff (S : SliceSorter) (p : PriceLevel) (a b : Order)
    (hab : a.ID ≠ b.ID) :
    (∃ x ∈ (p.Add S b).Orders, x.ID = a.ID) ↔ ∃ x ∈ p.Orders, x.ID = a.ID := by
  by_cases hb : ∃ x ∈ p.Orders, x.ID = b.ID
  · rw [Add_of_present S p b hb]
  · have hb2 : ∀ x ∈ p.Orders, x.ID ≠ b.ID := fun x hx e => hb ⟨x, hx, e⟩
    have hperm := Add_perm_absent S p b hb2
    constructor
    · rintro ⟨x, hx, hid⟩
      rcases List.mem_cons.mp (hperm.mem_iff.mp hx) with rfl | hx2
      · exact absurd hid.symm hab
      · exact ⟨x, hx2, hid⟩
    · rintro ⟨x, hx, hid⟩
      exact ⟨x, hperm.mem_iff.mpr (List.mem_cons_of_mem _ hx), hid⟩

theorem searchIndex_take_lt (l : List Order) (id : Int) :
    ∀ x ∈ l.take (searchIndex l id), x.ID < id := by
  induction l with
  | nil => simp
  | cons y ys ih =>
    intro x hx
    by_cases hy : id ≤ y.ID
    · simp [searchIndex, List.findIdx_cons, hy] at hx
    · have e : searchIndex (y :: ys) id = searchIndex ys id + 1 := by
        simp [searchIndex, List.findIdx_cons, hy]
      rw [e, List.take_succ_cons] at hx
      rcases List.mem_cons.mp hx with rfl | hx2
      · omega
      · exact ih x hx2

theorem searchIndex_drop_ge (l : List Order) (id : Int) (h : StrictAsc l) :
    ∀ x ∈ l.drop (searchIndex l id), id ≤ x.ID := by
  induction l with
  | nil => simp
  | cons y ys ih =>
    intro x hx
    have hc := List.pairwise_cons.mp h
    by_cases hy : id ≤ y.ID
    · have e : searchIndex (y :: ys) id = 0 := by
        simp [searchIndex, List.findIdx_cons, hy]
      rw [e, List.drop_zero] at hx
      rcases List.mem_cons.mp hx with rfl | hx2
      · exact hy
      · have := hc.1 x hx2
        omega
    · have e : searchIndex (y :: ys) id = searchIndex ys id + 1 := by
        simp [searchIndex, List.findIdx_cons, hy]
      rw [e, List.drop_succ_cons] at hx
      exact ih hc.2 x hx

theorem searchIndex_finds (l : List Order) (id : Int) (h : StrictAsc l)
    (hp : ∃ y ∈ l, y.ID = id) : ∃ y, l[searchIndex l id]? = some y ∧ y.ID = id := by
  induction l with
  | nil => simp at hp
  | cons z zs ih =>
    have hc := List.pairwise_cons.mp h
    obtain ⟨y, hy, hid⟩ := hp
    by_cases hz : id ≤ z.ID
    · have e : searchIndex (z :: zs) id = 0 := by
        simp [searchIndex, List.findIdx_cons, hz]
      refine ⟨z, by simp [e], ?_⟩
      rcases List.mem_cons.mp hy with rfl | hy2
      · exact hid
      · have := hc.1 y hy2
        omega
    · have e : searchIndex (z :: zs) id = searchIndex zs id + 1 := by
        simp [searchIndex, List.findIdx_cons, hz]
      rcases List.mem_cons.mp hy with rfl | hy2
      · omega
      · obtain ⟨w, hw, hwid⟩ := ih hc.2 ⟨y, hy2, hid⟩
        exact ⟨w, by simpa [e] using hw, hwid⟩

theorem positional_strictAsc (l : List Order) (o : Order) (h : StrictAsc l)
    (habs : ∀ x ∈ l, x.ID ≠ o.ID) :
    StrictAsc (l.take (searchIndex l o.ID) ++ o :: l.drop (searchIndex l o.ID)) := by
  unfold StrictAsc
  rw [List.pairwise_append]
  have hdrop : ∀ x ∈ l.drop (searchIndex l o.ID), o.ID < x.ID := by
    intro x hx
    have h1 := searchIndex_drop_ge l o.ID h x hx
    have h2 := habs x (List.mem_of_mem_drop hx)
    omega
  refine ⟨h.sublist (List.take_sublist _ _), ?_, ?_⟩
  · rw [List.pairwise_cons]
    exact ⟨hdrop, h.sublist (List.drop_sublist _ _)⟩
  · intro a ha b hb
    have h1 := searchIndex_take_lt l o.ID a ha
    rcases List.mem_cons.mp hb with rfl | hb2
    · exact h1
    · have := hdrop b hb2
      omega

theorem positional_perm (l : List Order) (o : Order) (i : Nat) :
    (l.take i ++ o :: l.drop i).Perm (o :: l) := by
  have h : (l.take i ++ o :: l.drop i).Perm (o :: (l.take i ++ l.drop i)) := List.perm_middle
  rwa [List.take_append_drop] at h

/-! ## Price level: the properties -/

/-- C1: a second `Add` of the same order changes nothing: the level, its `Size`
and its `Total` are those after the first `Add`; and `Add` of an order whose
`ID` is already present in a level leaves `Orders` unchanged. -/
theorem Add_idempotent (S : SliceSorter) (p : PriceLevel) (o : Order) :
    (p.Add S o).Add S o = p.Add S o ∧
    ((p.Add S o).Add S o).Size = (p.Add S o).Size ∧
    ((p.Add S o).Add S o).Total = (p.Add S o).Total ∧
    ((∃ x ∈ p.Orders, x.ID = o.ID) → (p.Add S o).Orders = p.Orders) := by
  have h := Add_of_present S (p.Add S o) o (Add_present_after S p o)
  refine ⟨h, by rw [h], by rw [h], ?_⟩
  intro hp
  rw [Add_of_present S p o hp]

/-- C1, at the level holding IDs 1 and 2 and a second order with ID 2. -/
theorem Add_idempotent_witness :
    ((sampleLevel [1, 2]).Add goSort
        { ID := 2, Symbol := "btcusd", Quantity := 7, FilledQuantity := 3 }).Orders =
      (sampleLevel [1, 2]).Orders :=
  (Add_idempotent goSort (sampleLevel [1, 2])
      { ID := 2, Symbol := "btcusd", Quantity := 7, FilledQuantity := 3 }).2.2.2
    ⟨sampleOrder 2, by simp [sampleLevel], rfl⟩

/-- C2: from `NewPriceLevel`, after every call of every finite sequence of `Add`
and `Remove` calls, the call has returned and `Orders` is strictly ascending by
`ID` (sorted, and no two entries share an `ID`). -/
theorem Orders_strictly_ascending (S : SliceSorter) (side : OrderSide) (price : ℚ)
    (ops : List LevelOp) (k : Nat) :
    ∃ p, runOps S (NewPriceLevel side price) (ops.take k) = some p ∧ StrictAsc p.Orders :=
  runOps_strictAsc S (NewPriceLevel side price) (ops.take k) List.Pairwise.nil

/-- C3: on a level strictly ascending by `ID` that holds an entry with the `ID`
of `o`, `Remove` returns the old sequence with that one entry taken out, the
entries before and after it kept in sequence; on any level with no entry of
that `ID`, `Remove` returns the level unchanged. -/
theorem Remove_deletes_single_entry (p : PriceLevel) (o : Order) :
    (StrictAsc p.Orders → (∃ x ∈ p.Orders, x.ID = o.ID) →
      ∃ pre x post, p.Orders = pre ++ x :: post ∧ x.ID = o.ID ∧
        (∀ y ∈ pre ++ post, y.ID ≠ o.ID) ∧
        p.Remove o = some { p with Orders := pre ++ post }) ∧
    ((∀ x ∈ p.Orders, x.ID ≠ o.ID) → p.Remove o = some p) := by
  refine ⟨?_, Remove_absent p o⟩
  intro h hm
  obtain ⟨pre, x, post, hs, hx, hpre, hpost⟩ := strictAsc_split p.Orders o.ID h hm
  refine ⟨pre, x, post, hs, hx, ?_, Remove_split p o x pre post hs hx hpre hpost⟩
  intro y hy
  rcases List.mem_append.mp hy with h1 | h1
  · exact hpre y h1
  · exact hpost y h1

/-- C3, at the level holding IDs 1, 2, 3: removing ID 2 and removing ID 5. -/
theorem Remove_deletes_single_entry_witness :
    (∃ pre x post, (sampleLevel [1, 2, 3]).Orders = pre ++ x :: post ∧
        x.ID = (sampleOrder 2).ID ∧ (∀ y ∈ pre ++ post, y.ID ≠ (sampleOrder 2).ID) ∧
        (sampleLevel [1, 2, 3]).Remove (sampleOrder 2) =
          some { sampleLevel [1, 2, 3] with Orders := pre ++ post }) ∧
    (sampleLevel [1, 2, 3]).Remove (sampleOrder 5) = some (sampleLevel [1, 2, 3]) :=
  ⟨(Remove_deletes_single_entry (sampleLevel [1, 2, 3]) (sampleOrder 2)).1
      (by decide) ⟨sampleOrder 2, by simp [sampleLevel], rfl⟩,
   (Remove_deletes_single_entry (sampleLevel [1, 2, 3]) (sampleOrder 5)).2
      (by decide)⟩

/-- C4: `Remove` on a level in which two entries carry the given `ID`.  On the
level with IDs 1, 1 the second match re-slices beyond the shortened slice and
the call panics; on the level with IDs 1, 2, 1, 3 both entries with ID 1 are
taken out and `Size` drops from 4 to 2. -/
theorem Remove_duplicate_ID_fails :
    (sampleLevel [1, 1]).Remove (sampleOrder 1) = none ∧
    ((sampleLevel [1, 2, 1, 3]).Remove (sampleOrder 1)).map
        (fun q => q.Orders.map Order.ID) = some [2, 3] ∧
    (sampleLevel [1, 2, 1, 3]).Size = 4 ∧
    ((sampleLevel [1, 2, 1, 3]).Remove (sampleOrder 1)).map PriceLevel.Size = some 2 := by
  decide

/-- C5: from `NewPriceLevel`, after any finite sequence of `Add` and `Remove`
calls, `Top` is nil exactly when the level holds no orders, and otherwise it is
an order of the level whose `ID` is the least of all `ID`s in the level. -/
theorem Top_is_lowest_ID (S : SliceSorter) (side : OrderSide) (price : ℚ)
    (ops : List LevelOp) :
    ∃ p, runOps S (NewPriceLevel side price) ops = some p ∧
      (p.Top = none ↔ p.Orders = []) ∧
      (p.Orders ≠ [] → ∃ t, p.Top = some t ∧ t ∈ p.Orders ∧ ∀ x ∈ p.Orders, t.ID ≤ x.ID) := by
  obtain ⟨p, hp, hs⟩ := runOps_strictAsc S (NewPriceLevel side price) ops List.Pairwise.nil
  refine ⟨p, hp, ?_, ?_⟩
  · cases hl : p.Orders with
    | nil => simp [PriceLevel.Top, PriceLevel.Empty, hl]
    | cons t ts => simp [PriceLevel.Top, PriceLevel.Empty, hl]
  · intro hne
    cases hl : p.Orders with
    | nil => exact absurd hl hne
    | cons t ts =>
      refine ⟨t, by simp [PriceLevel.Top, PriceLevel.Empty, hl], by simp, ?_⟩
      intro x hx
      unfold StrictAsc at hs
      rw [hl, List.pairwise_cons] at hs
      rcases List.mem_cons.mp hx with rfl | hx
      · exact Int.le_refl _
      · exact Int.le_of_lt (hs.1 x hx)

/-- C5, adding IDs 3, 1, 2 in that sequence and removing ID 1: `Top` has ID 2. -/
theorem Top_is_lowest_ID_witness :
    (runOps goSort (NewPriceLevel OrderSide.sell 100)
        [LevelOp.add (sampleOrder 3), LevelOp.add (sampleOrder 1),
         LevelOp.add (sampleOrder 2), LevelOp.remove (sampleOrder 1)]).map PriceLevel.Top =
      some (some (sampleOrder 2)) ∧
    ∃ p, runOps goSort (NewPriceLevel OrderSide.sell 100)
        [LevelOp.add (sampleOrder 3), LevelOp.add (sampleOrder 1),
         LevelOp.add (sampleOrder 2), LevelOp.remove (sampleOrder 1)] = some p ∧
      (p.Top = none ↔ p.Orders = []) ∧
      (p.Orders ≠ [] → ∃ t, p.Top = some t ∧ t ∈ p.Orders ∧ ∀ x ∈ p.Orders, t.ID ≤ x.ID) :=
  ⟨by decide, Top_is_lowest_ID goSort OrderSide.sell 100 _⟩

/-- C6: `Add` of an order whose `ID` is not in the level gives a permutation of
the old `Orders` with the order appended, `Size` grows by one, `Total` grows by
the unfilled quantity of the order, and `Total` of any level is the sum of the
unfilled quantities of its orders. -/
theorem Add_absent_perm_size_total (S : SliceSorter) (p : PriceLevel) (o : Order)
    (h : ∀ x ∈ p.Orders, x.ID ≠ o.ID) :
    (p.Add S o).Orders.Perm (p.Orders ++ [o]) ∧
    (p.Add S o).Size = p.Size + 1 ∧
    (p.Add S o).Total = p.Total + o.UnfilledQuantity ∧
    (∀ q : PriceLevel, q.Total = (q.Orders.map Order.UnfilledQuantity).sum) := by
  have hperm : (p.Add S o).Orders.Perm (p.Orders ++ [o]) := by
    rw [Add_of_absent S p o h]; exact S.perm _
  refine ⟨hperm, ?_, ?_, Total_eq_sum⟩
  · simp [PriceLevel.Size, hperm.length_eq]
  · rw [Total_eq_sum, Total_eq_sum, (hperm.map Order.UnfilledQuantity).sum_eq]
    simp

/-- C6, at the level holding IDs 1 and 3 and a new order with ID 2. -/
theorem Add_absent_perm_size_total_witness :
    ((sampleLevel [1, 3]).Add goSort (sampleOrder 2)).Orders.Perm
      ((sampleLevel [1, 3]).Orders ++ [sampleOrder 2]) ∧
    ((sampleLevel [1, 3]).Add goSort (sampleOrder 2)).Size = (sampleLevel [1, 3]).Size + 1 ∧
    ((sampleLevel [1, 3]).Add goSort (sampleOrder 2)).Total =
      (sampleLevel [1, 3]).Total + (sampleOrder 2).UnfilledQuantity ∧
    (∀ q : PriceLevel, q.Total = (q.Orders.map Order.UnfilledQuantity).sum) :=
  Add_absent_perm_size_total goSort (sampleLevel [1, 3]) (sampleOrder 2) (by decide)

/-! ## Matching worker: the properties -/

/-- C7: when the market of the order is registered with an engine whose
`Initialized` flag is false, `SubmitOrder` and `CancelOrder` return the error
`engine is not ready` in the unchanged state: no engine method is called
(`calls` is as before) and no engine object on the heap is changed. -/
theorem not_ready_engine_rejects {B : Type} (E : EngineOps B) (w : MatchingWorker B)
    (o : Order) (a : Nat) (hreg : w.Engines o.Symbol = some a)
    (hcold : (w.heap a).Initialized = false) :
    w.SubmitOrder E (some o) = Outcome.returned (some "engine is not ready") w ∧
    w.CancelOrder E (some o) = Outcome.returned (some "engine is not ready") w := by
  simp [MatchingWorker.SubmitOrder, MatchingWorker.CancelOrder, hreg, hcold]

/-- C7, at the sample worker and an order for `ethusd`, whose engine is cold. -/
theorem not_ready_engine_rejects_witness :
    sampleWorker.SubmitOrder sampleOps
        (some { ID := 4, Symbol := "ethusd", Quantity := 2, FilledQuantity := 0 }) =
      Outcome.returned (some "engine is not ready") sampleWorker ∧
    sampleWorker.CancelOrder sampleOps
        (some { ID := 4, Symbol := "ethusd", Quantity := 2, FilledQuantity := 0 }) =
      Outcome.returned (some "engine is not ready") sampleWorker :=
  not_ready_engine_rejects sampleOps sampleWorker
    { ID := 4, Symbol := "ethusd", Quantity := 2, FilledQuantity := 0 } 1
    (by decide) (by decide)

/-- C8: when the market of the order has no engine in the registry,
`SubmitOrder` and `CancelOrder` return the error `engine not found`, which is
not the not-ready error, in the unchanged state: no engine method is called and
`Engines` has no new entry. -/
theorem unknown_market_rejects {B : Type} (E : EngineOps B) (w : MatchingWorker B)
    (o : Order) (habsent : w.Engines o.Symbol = none) :
    w.SubmitOrder E (some o) = Outcome.returned (some "engine not found") w ∧
    w.CancelOrder E (some o) = Outcome.returned (some "engine not found") w ∧
    "engine not found" ≠ "engine is not ready" := by
  simp [MatchingWorker.SubmitOrder, MatchingWorker.CancelOrder, habsent]

/-- C8, at the sample worker and an order for `dogeusd`, which is not registered. -/
theorem unknown_market_rejects_witness :
    sampleWorker.SubmitOrder sampleOps
        (some { ID := 5, Symbol := "dogeusd", Quantity := 2, FilledQuantity := 0 }) =
      Outcome.returned (some "engine not found") sampleWorker ∧
    sampleWorker.CancelOrder sampleOps
        (some { ID := 5, Symbol := "dogeusd", Quantity := 2, FilledQuantity := 0 }) =
      Outcome.returned (some "engine not found") sampleWorker ∧
    "engine not found" ≠ "engine is not ready" :=
  unknown_market_rejects sampleOps sampleWorker
    { ID := 5, Symbol := "dogeusd", Quantity := 2, FilledQuantity := 0 } (by decide)

/-- C9, as stated, fails: on a decoded message with the action tag `refresh`,
`Process` ends on the fatal path and returns no error to its caller. -/
theorem Process_unknown_action_not_returned :
    sampleWorker.Process sampleOps sampleStore
        (decodesTo { Action := "refresh", Order := none, Market := "btcusd" }) [] =
      Outcome.fatal "Unknown action: refresh" ∧
    ¬ ∃ err st, sampleWorker.Process sampleOps sampleStore
        (decodesTo { Action := "refresh", Order := none, Market := "btcusd" }) [] =
          Outcome.returned (some err) st := by
  have h : sampleWorker.Process sampleOps sampleStore
      (decodesTo { Action := "refresh", Order := none, Market := "btcusd" }) [] =
        Outcome.fatal "Unknown action: refresh" := by
    simp [MatchingWorker.Process, decodesTo, ActionSubmit, ActionCancel, ActionReload]
  refine ⟨h, ?_⟩
  rw [h]
  rintro ⟨err, st, he⟩
  cases he

/-- C9, amended: on a decoded message whose action tag is none of submit, cancel
and reload, `Process` takes the `default` branch: the logger's `Fatalf` with the
message `Unknown action: ` followed by the tag; nothing is returned to the
caller, no engine method is called and the registry is not changed. -/
theorem Process_unknown_action_fatal {B : Type} (E : EngineOps B) (db : Store)
    (unmarshal : List UInt8 → Except String MatchingPayloadMessage)
    (w : MatchingWorker B) (payload : List UInt8) (msg : MatchingPayloadMessage)
    (hdec : unmarshal payload = Except.ok msg)
    (hs : msg.Action ≠ ActionSubmit) (hc : msg.Action ≠ ActionCancel)
    (hr : msg.Action ≠ ActionReload) :
    w.Process E db unmarshal payload = Outcome.fatal ("Unknown action: " ++ msg.Action) := by
  simp [MatchingWorker.Process, hdec, hs, hc, hr]

/-- C9 amended, at the sample worker and the action tag `refresh`. -/
theorem Process_unknown_action_fatal_witness :
    sampleWorker.Process sampleOps sampleStore
        (decodesTo { Action := "refresh", Order := none, Market := "btcusd" }) [] =
      Outcome.fatal ("Unknown action: " ++ "refresh") :=
  Process_unknown_action_fatal sampleOps sampleStore
    (decodesTo { Action := "refresh", Order := none, Market := "btcusd" }) sampleWorker []
    { Action := "refresh", Order := none, Market := "btcusd" } rfl
    (by decide) (by decide) (by decide)

/-- C10: `Process` on a decoded submit message, and on a decoded cancel message,
whose order is nil: `SubmitOrder` and `CancelOrder` read `order.Symbol` through
the nil pointer and the call panics. -/
theorem Process_nil_order_panics :
    sampleWorker.Process sampleOps sampleStore
        (decodesTo { Action := ActionSubmit, Order := none, Market := "btcusd" }) [] =
      Outcome.panicked ∧
    sampleWorker.Process sampleOps sampleStore
        (decodesTo { Action := ActionCancel, Order := none, Market := "btcusd" }) [] =
      Outcome.panicked := by
  constructor <;>
    simp [MatchingWorker.Process, decodesTo, MatchingWorker.SubmitOrder,
      MatchingWorker.CancelOrder, ActionSubmit, ActionCancel]

/-! ## Lemmas on `LoadOrders` and the points of `InitializeEngine` -/

theorem foldl_callSubmit_frame {B : Type} (E : EngineOps B) (a : Nat) (os : List Order)
    (st : MatchingWorker B) :
    (os.foldl (fun st order => callSubmit E st a order) st).Engines = st.Engines ∧
    (os.foldl (fun st order => callSubmit E st a order) st).next = st.next ∧
    (∀ b, b ≠ a → (os.foldl (fun st order => callSubmit E st a order) st).heap b = st.heap b) ∧
    (os.foldl (fun st order => callSubmit E st a order) st).calls =
      st.calls ++ os.map (EngineCall.submit a) ∧
    (os.foldl (fun st order => callSubmit E st a order) st).heap a =
      os.foldl E.Submit (st.heap a) := by
  induction os generalizing st with
  | nil => simp
  | cons o os ih =>
    obtain ⟨h1, h2, h3, h4, h5⟩ := ih (callSubmit E st a o)
    simp only [List.foldl_cons]
    refine ⟨h1, h2, ?_, ?_, ?_⟩
    · intro b hb
      rw [h3 b hb]
      simp [callSubmit, Function.update_noteq hb]
    · rw [h4]
      simp [callSubmit]
    · rw [h5]
      simp [callSubmit]

theorem scanl_callSubmit_frame {B : Type} (E : EngineOps B) (a : Nat) (os : List Order)
    (st : MatchingWorker B)
    (hE : ∀ e ord, e.Initialized = false → (E.Submit e ord).Initialized = false)
    (hcold : (st.heap a).Initialized = false) :
    ∀ s ∈ os.scanl (fun st order => callSubmit E st a order) st,
      s.Engines = st.Engines ∧ (s.heap a).Initialized = false := by
  induction os generalizing st with
  | nil =>
    intro s hs
    simp only [List.scanl_nil, List.mem_singleton] at hs
    subst hs
    exact ⟨rfl, hcold⟩
  | cons o os ih =>
    intro s hs
    rw [List.scanl_cons] at hs
    rcases List.mem_append.mp hs with h1 | h1
    · rw [List.mem_singleton] at h1
      subst h1
      exact ⟨rfl, hcold⟩
    · have hc : ((callSubmit E st a o).heap a).Initialized = false := by
        simp only [callSubmit, Function.update_same]
        exact hE _ _ hcold
      exact ih (callSubmit E st a o) hc s h1

theorem replayStates_head_mem {B : Type} (E : EngineOps B) (db : Store) (w : MatchingWorker B)
    (a : Nat) : w ∈ replayStates E db w a := by
  unfold replayStates
  cases db.waitingOrders (w.heap a).Market with
  | nil => simp
  | cons o os => rw [List.scanl_cons]; simp

theorem InitializeEngine_frame {B : Type} (E : EngineOps B) (db : Store) (w : MatchingWorker B)
    (market : String) :
    (w.InitializeEngine E db market).Engines = Function.update w.Engines market (some w.next) ∧
    (∀ b, b ≠ w.next → (w.InitializeEngine E db market).heap b = w.heap b) ∧
    (w.InitializeEngine E db market).calls =
      w.calls ++ (db.waitingOrders market).map (EngineCall.submit w.next) ∧
    (w.InitializeEngine E db market).heap w.next =
      { (db.waitingOrders market).foldl E.Submit (NewEngine E market 0) with
        Initialized := true } := by
  have hm : ((installNewEngine E w market).1.heap w.next).Market = market := by
    simp [installNewEngine, NewEngine]
  obtain ⟨h1, _, h3, h4, h5⟩ := foldl_callSubmit_frame E w.next (db.waitingOrders market)
    (installNewEngine E w market).1
  have h2 : (installNewEngine E w market).2 = w.next := rfl
  simp only [MatchingWorker.InitializeEngine, MatchingWorker.LoadOrders, markInitialized, h2, hm]
  refine ⟨?_, ?_, ?_, ?_⟩
  · rw [h1]; rfl
  · intro b hb
    rw [Function.update_noteq hb, h3 b hb]
    simp [installNewEngine, Function.update_noteq hb]
  · rw [h4]; rfl
  · rw [Function.update_same, h5]
    simp [installNewEngine]

theorem sampleWorker_wellFormed : sampleWorker.WellFormed := by
  intro m a h
  simp only [sampleWorker] at h
  show a < 2
  split_ifs at h <;> simp at h <;> omega

/-! ## Reload: the properties -/

/-- C11: for a market name `m` other than `all`, `Reload(m)` leaves every other
market `m'` with the engine pointer it had, the engine object behind that
pointer is as it was (its `Initialized` flag included), and none of the engine
calls made during the reload goes to that engine.  The registry is one of a
running program: its engine pointers refer to allocated objects. -/
theorem Reload_frames_other_markets {B : Type} (E : EngineOps B) (db : Store)
    (w : MatchingWorker B) (m m' : String) (hall : m ≠ "all") (hm : m' ≠ m)
    (hwf : w.WellFormed) :
    (w.Reload E db m).Engines m' = w.Engines m' ∧
    ∃ extra, (w.Reload E db m).calls = w.calls ++ extra ∧
      ∀ a, w.Engines m' = some a →
        (w.Reload E db m).heap a = w.heap a ∧ ∀ c ∈ extra, c.target ≠ a := by
  obtain ⟨h1, h2, h3, _⟩ := InitializeEngine_frame E db w m
  simp only [MatchingWorker.Reload, if_neg hall]
  refine ⟨by rw [h1, Function.update_noteq hm], _, h3, ?_⟩
  intro a ha
  have hlt : a < w.next := hwf m' a ha
  refine ⟨h2 a (by omega), ?_⟩
  intro c hc
  obtain ⟨o, _, rfl⟩ := List.mem_map.mp hc
  simp only [EngineCall.target]
  omega

/-- C11, at the sample worker: reloading `btcusd` with two waiting orders, seen
from `ethusd`. -/
theorem Reload_frames_other_markets_witness :
    (sampleWorker.Reload sampleOps sampleBacklog "btcusd").Engines "ethusd" =
      sampleWorker.Engines "ethusd" ∧
    ∃ extra, (sampleWorker.Reload sampleOps sampleBacklog "btcusd").calls =
        sampleWorker.calls ++ extra ∧
      ∀ a, sampleWorker.Engines "ethusd" = some a →
        (sampleWorker.Reload sampleOps sampleBacklog "btcusd").heap a = sampleWorker.heap a ∧
        ∀ c ∈ extra, c.target ≠ a :=
  Reload_frames_other_markets sampleOps sampleBacklog sampleWorker "btcusd" "ethusd"
    (by decide) (by decide) sampleWorker_wellFormed

/-- C12, as stated, fails: for the market `dogeusd`, which has no engine yet, at
the point of `InitializeEngine` after the new engine is allocated and before it
is stored, `SubmitOrder` returns `engine not found`: it is neither delegated
nor rejected as not ready. -/
theorem mid_InitializeEngine_engine_not_found :
    ∃ s ∈ InitializeEnginePoints sampleOps sampleStore sampleWorker "dogeusd",
      s.SubmitOrder sampleOps
          (some { ID := 9, Symbol := "dogeusd", Quantity := 1, FilledQuantity := 0 }) =
        Outcome.returned (some "engine not found") s ∧
      s.SubmitOrder sampleOps
          (some { ID := 9, Symbol := "dogeusd", Quantity := 1, FilledQuantity := 0 }) ≠
        Outcome.returned (some "engine is not ready") s ∧
      ∀ st, s.SubmitOrder sampleOps
          (some { ID := 9, Symbol := "dogeusd", Quantity := 1, FilledQuantity := 0 }) ≠
        Outcome.returned none st := by
  refine ⟨allocNewEngine sampleOps sampleWorker "dogeusd", List.mem_cons_self _ _, ?_⟩
  have h : (allocNewEngine sampleOps sampleWorker "dogeusd").SubmitOrder sampleOps
      (some { ID := 9, Symbol := "dogeusd", Quantity := 1, FilledQuantity := 0 }) =
        Outcome.returned (some "engine not found")
          (allocNewEngine sampleOps sampleWorker "dogeusd") := by
    simp [MatchingWorker.SubmitOrder, allocNewEngine, sampleWorker]
  rw [h]
  refine ⟨rfl, ?_, ?_⟩
  · intro he
    injection he with he1 _
    simp at he1
  · intro st he
    injection he with he1 _
    simp at he1

/-- C12, amended: at every point inside `InitializeEngine(market)`, a
`SubmitOrder` or `CancelOrder` for that market is rejected with `engine is not
ready`, or (before the new engine is stored, for a market that had no engine)
with `engine not found`, or is delegated to the engine the market had before
the call, which is ready and in the state it had before the call.  It is never
delegated to the new engine.  `Submit` is taken not to raise the `Initialized`
flag of a cold engine, and the registry is one of a running program. -/
theorem mid_InitializeEngine_gate {B : Type} (E : EngineOps B) (db : Store)
    (w : MatchingWorker B) (market : String) (o : Order)
    (hE : ∀ e ord, e.Initialized = false → (E.Submit e ord).Initialized = false)
    (hwf : w.WellFormed) (ho : o.Symbol = market) :
    ∀ s ∈ InitializeEnginePoints E db w market,
      (s.SubmitOrder E (some o) = Outcome.returned (some "engine is not ready") s ∧
        s.CancelOrder E (some o) = Outcome.returned (some "engine is not ready") s) ∨
      (w.Engines market = none ∧
        s.SubmitOrder E (some o) = Outcome.returned (some "engine not found") s ∧
        s.CancelOrder E (some o) = Outcome.returned (some "engine not found") s) ∨
      (∃ a, w.Engines market = some a ∧ a < w.next ∧ (w.heap a).Initialized = true ∧
        s.heap a = w.heap a ∧
        s.SubmitOrder E (some o) = Outcome.returned none (callSubmit E s a o) ∧
        s.CancelOrder E (some o) = Outcome.returned none (callCancel E s a o)) := by
  subst ho
  intro s hs
  rcases List.mem_cons.mp hs with rfl | hs2
  · cases hreg : w.Engines o.Symbol with
    | none =>
      refine Or.inr (Or.inl ⟨rfl, ?_, ?_⟩) <;>
        simp [MatchingWorker.SubmitOrder, MatchingWorker.CancelOrder, allocNewEngine, hreg]
    | some a =>
      have hlt : a < w.next := hwf _ a hreg
      have hne : a ≠ w.next := by omega
      have hheap : (allocNewEngine E w o.Symbol).heap a = w.heap a := by
        simp [allocNewEngine, Function.update_noteq hne]
      cases hinit : (w.heap a).Initialized with
      | false =>
        refine Or.inl ⟨?_, ?_⟩ <;>
          simp [MatchingWorker.SubmitOrder, MatchingWorker.CancelOrder, allocNewEngine, hreg,
            Function.update_noteq hne, hinit]
      | true =>
        refine Or.inr (Or.inr ⟨a, rfl, hlt, hinit, hheap, ?_, ?_⟩) <;>
          simp [MatchingWorker.SubmitOrder, MatchingWorker.CancelOrder, allocNewEngine, hreg,
            Function.update_noteq hne, hinit]
  · have hcold : ((installNewEngine E w o.Symbol).1.heap w.next).Initialized = false := by
      simp [installNewEngine, NewEngine]
    obtain ⟨h1, h2⟩ := scanl_callSubmit_frame E w.next _ _ hE hcold s hs2
    have hreg : s.Engines o.Symbol = some w.next := by
      rw [h1]; simp [installNewEngine]
    refine Or.inl ⟨?_, ?_⟩ <;>
      simp [MatchingWorker.SubmitOrder, MatchingWorker.CancelOrder, hreg, h2]

/-- C12 amended, at the sample worker and `InitializeEngine` on `btcusd` with
two waiting orders: the point after the new engine is stored. -/
theorem mid_InitializeEngine_gate_witness :
    ((installNewEngine sampleOps sampleWorker "btcusd").1.SubmitOrder sampleOps
          (some (sampleOrder 7)) =
        Outcome.returned (some "engine is not ready")
          (installNewEngine sampleOps sampleWorker "btcusd").1 ∧
      (installNewEngine sampleOps sampleWorker "btcusd").1.CancelOrder sampleOps
          (some (sampleOrder 7)) =
        Outcome.returned (some "engine is not ready")
          (installNewEngine sampleOps sampleWorker "btcusd").1) ∨
    (sampleWorker.Engines "btcusd" = none ∧
      (installNewEngine sampleOps sampleWorker "btcusd").1.SubmitOrder sampleOps
          (some (sampleOrder 7)) =
        Outcome.returned (some "engine not found")
          (installNewEngine sampleOps sampleWorker "btcusd").1 ∧
      (installNewEngine sampleOps sampleWorker "btcusd").1.CancelOrder sampleOps
          (some (sampleOrder 7)) =
        Outcome.returned (some "engine not found")
          (installNewEngine sampleOps sampleWorker "btcusd").1) ∨
    (∃ a, sampleWorker.Engines "btcusd" = some a ∧ a < sampleWorker.next ∧
      (sampleWorker.heap a).Initialized = true ∧
      (installNewEngine sampleOps sampleWorker "btcusd").1.heap a = sampleWorker.heap a ∧
      (installNewEngine sampleOps sampleWorker "btcusd").1.SubmitOrder sampleOps
          (some (sampleOrder 7)) =
        Outcome.returned none
          (callSubmit sampleOps (installNewEngine sampleOps sampleWorker "btcusd").1 a
            (sampleOrder 7)) ∧
      (installNewEngine sampleOps sampleWorker "btcusd").1.CancelOrder sampleOps
          (some (sampleOrder 7)) =
        Outcome.returned none
          (callCancel sampleOps (installNewEngine sampleOps sampleWorker "btcusd").1 a
            (sampleOrder 7))) :=
  mid_InitializeEngine_gate sampleOps sampleBacklog sampleWorker "btcusd" (sampleOrder 7)
    (fun _ _ h => h) sampleWorker_wellFormed rfl
    (installNewEngine sampleOps sampleWorker "btcusd").1
    (List.mem_cons_of_mem _ (replayStates_head_mem _ _ _ _))

/-- C13, as stated, fails: `btcusd` has a ready engine at address 0; at the point
of `InitializeEngine` after the new engine is stored, the engine registered for
`btcusd` is the new one at address 2, with `Initialized` false and an empty
book, while two orders wait to be replayed. -/
theorem InitializeEngine_registers_cold_engine :
    sampleWorker.Engines "btcusd" = some 0 ∧
    (sampleWorker.heap 0).Initialized = true ∧
    (sampleBacklog.waitingOrders "btcusd").length = 2 ∧
    ∃ s ∈ InitializeEnginePoints sampleOps sampleBacklog sampleWorker "btcusd",
      s.Engines "btcusd" = some 2 ∧ (s.heap 2).Initialized = false ∧ (s.heap 2).Book = [] := by
  refine ⟨by decide, by decide, by decide, (installNewEngine sampleOps sampleWorker "btcusd").1,
    List.mem_cons_of_mem _ (replayStates_head_mem _ _ _ _), ?_, ?_, ?_⟩
  · simp [installNewEngine, sampleWorker]
  · simp [installNewEngine, sampleWorker, NewEngine]
  · simp [installNewEngine, sampleWorker, NewEngine, sampleOps]

/-- C13, amended: `InitializeEngine` stores the new engine in the registry right
after it is built, before the backlog is replayed.  After the allocation the
market still has the engine pointer it had; from the store on, through the
replay, the registered engine is the new one with `Initialized` false; when the
method returns it is the new one with `Initialized` true, every waiting order
submitted to it in sequence and to no other engine.  `Submit` is taken not to
raise the `Initialized` flag of a cold engine. -/
theorem InitializeEngine_stores_before_replay {B : Type} (E : EngineOps B) (db : Store)
    (w : MatchingWorker B) (market : String)
    (hE : ∀ e ord, e.Initialized = false → (E.Submit e ord).Initialized = false) :
    (allocNewEngine E w market).Engines market = w.Engines market ∧
    (∀ s ∈ replayStates E db (installNewEngine E w market).1 w.next,
      s.Engines market = some w.next ∧ (s.heap w.next).Initialized = false) ∧
    (w.InitializeEngine E db market).Engines market = some w.next ∧
    ((w.InitializeEngine E db market).heap w.next).Initialized = true ∧
    (w.InitializeEngine E db market).heap w.next =
      { (db.waitingOrders market).foldl E.Submit (NewEngine E market 0) with
        Initialized := true } ∧
    (w.InitializeEngine E db market).calls =
      w.calls ++ (db.waitingOrders market).map (EngineCall.submit w.next) := by
  obtain ⟨h1, _, h3, h4⟩ := InitializeEngine_frame E db w market
  have hcold : ((installNewEngine E w market).1.heap w.next).Initialized = false := by
    simp [installNewEngine, NewEngine]
  refine ⟨rfl, ?_, by rw [h1, Function.update_same], by rw [h4], h4, h3⟩
  intro s hs
  obtain ⟨h5, h6⟩ := scanl_callSubmit_frame E w.next _ _ hE hcold s hs
  refine ⟨?_, h6⟩
  rw [h5]
  simp [installNewEngine]

/-- C13 amended, at the sample worker: `InitializeEngine` on `btcusd` with two
waiting orders. -/
theorem InitializeEngine_stores_before_replay_witness :
    (allocNewEngine sampleOps sampleWorker "btcusd").Engines "btcusd" =
      sampleWorker.Engines "btcusd" ∧
    (∀ s ∈ replayStates sampleOps sampleBacklog
        (installNewEngine sampleOps sampleWorker "btcusd").1 sampleWorker.next,
      s.Engines "btcusd" = some sampleWorker.next ∧
      (s.heap sampleWorker.next).Initialized = false) ∧
    (sampleWorker.InitializeEngine sampleOps sampleBacklog "btcusd").Engines "btcusd" =
      some sampleWorker.next ∧
    ((sampleWorker.InitializeEngine sampleOps sampleBacklog "btcusd").heap
      sampleWorker.next).Initialized = true ∧
    (sampleWorker.InitializeEngine sampleOps sampleBacklog "btcusd").heap sampleWorker.next =
      { (sampleBacklog.waitingOrders "btcusd").foldl sampleOps.Submit
          (NewEngine sampleOps "btcusd" 0) with Initialized := true } ∧
    (sampleWorker.InitializeEngine sampleOps sampleBacklog "btcusd").calls =
      sampleWorker.calls ++
        (sampleBacklog.waitingOrders "btcusd").map (EngineCall.submit sampleWorker.next) :=
  InitializeEngine_stores_before_replay sampleOps sampleBacklog sampleWorker "btcusd"
    (fun _ _ h => h)

/-! ## Price level: positional insertion, order of arrival, add then remove -/

/-- C14: on a level whose `Orders` are strictly ascending by `ID`, `Add` (append,
then sort the whole slice) gives the same level as positional insertion at the
index found by `ID`, which leaves the level as it is when the `ID` is there. -/
theorem Add_eq_AddPositional (S : SliceSorter) (p : PriceLevel) (o : Order)
    (h : StrictAsc p.Orders) : p.Add S o = p.AddPositional o := by
  by_cases hp : ∃ x ∈ p.Orders, x.ID = o.ID
  · obtain ⟨y, hy, hid⟩ := searchIndex_finds p.Orders o.ID h hp
    rw [Add_of_present S p o hp]
    simp [PriceLevel.AddPositional, hy, hid]
  · have habs : ∀ x ∈ p.Orders, x.ID ≠ o.ID := fun x hx e => hp ⟨x, hx, e⟩
    have hsorted : StrictAsc (p.Add S o).Orders := Add_strictAsc S p o h
    have hperm : (p.Add S o).Orders.Perm
        (p.Orders.take (searchIndex p.Orders o.ID) ++
          o :: p.Orders.drop (searchIndex p.Orders o.ID)) :=
      (Add_perm_absent S p o habs).trans (positional_perm p.Orders o _).symm
    have heq := strictAsc_perm_unique hperm hsorted (positional_strictAsc p.Orders o h habs)
    rw [Add_of_absent S p o habs] at heq ⊢
    simp only at heq
    unfold PriceLevel.AddPositional
    cases hget : p.Orders[searchIndex p.Orders o.ID]? with
    | none => simp only [heq]
    | some x =>
      have hx : x.ID ≠ o.ID := habs x (List.getElem?_mem hget)
      simp only [if_neg hx, heq]

/-- C14, at the level holding IDs 1, 3, 5 and a new order with ID 4. -/
theorem Add_eq_AddPositional_witness :
    (sampleLevel [1, 3, 5]).Add goSort (sampleOrder 4) =
      (sampleLevel [1, 3, 5]).AddPositional (sampleOrder 4) ∧
    ((sampleLevel [1, 3, 5]).AddPositional (sampleOrder 4)).Orders.map Order.ID = [1, 3, 4, 5] :=
  ⟨Add_eq_AddPositional goSort (sampleLevel [1, 3, 5]) (sampleOrder 4) (by decide), by decide⟩

/-- C15: on a level whose `Orders` are strictly ascending by `ID`, for two orders
with different `ID`s, `Add(a)` then `Add(b)` gives the same level, so the same
`Orders` sequence, as `Add(b)` then `Add(a)`. -/
theorem Add_order_of_arrival (S : SliceSorter) (p : PriceLevel) (a b : Order)
    (h : StrictAsc p.Orders) (hab : a.ID ≠ b.ID) :
    (p.Add S a).Add S b = (p.Add S b).Add S a ∧
    ((p.Add S a).Add S b).Orders = ((p.Add S b).Add S a).Orders := by
  have key : (p.Add S a).Add S b = (p.Add S b).Add S a := by
    by_cases ha : ∃ x ∈ p.Orders, x.ID = a.ID
    · have ha2 := (present_after_Add_iff S p a b hab).mpr ha
      rw [Add_of_present S p a ha, Add_of_present S (p.Add S b) a ha2]
    · by_cases hb : ∃ x ∈ p.Orders, x.ID = b.ID
      · have hb2 := (present_after_Add_iff S p b a (Ne.symm hab)).mpr hb
        rw [Add_of_present S p b hb, Add_of_present S (p.Add S a) b hb2]
      · have ha1 : ∀ x ∈ p.Orders, x.ID ≠ a.ID := fun x hx e => ha ⟨x, hx, e⟩
        have hb1 : ∀ x ∈ p.Orders, x.ID ≠ b.ID := fun x hx e => hb ⟨x, hx, e⟩
        have ha2 : ∀ x ∈ (p.Add S b).Orders, x.ID ≠ a.ID := fun x hx e =>
          ha ((present_after_Add_iff S p a b hab).mp ⟨x, hx, e⟩)
        have hb2 : ∀ x ∈ (p.Add S a).Orders, x.ID ≠ b.ID := fun x hx e =>
          hb ((present_after_Add_iff S p b a (Ne.symm hab)).mp ⟨x, hx, e⟩)
        have p1 : ((p.Add S a).Add S b).Orders.Perm (b :: a :: p.Orders) :=
          (Add_perm_absent S (p.Add S a) b hb2).trans
            (List.Perm.cons b (Add_perm_absent S p a ha1))
        have p2 : ((p.Add S b).Add S a).Orders.Perm (a :: b :: p.Orders) :=
          (Add_perm_absent S (p.Add S b) a ha2).trans
            (List.Perm.cons a (Add_perm_absent S p b hb1))
        have heq : ((p.Add S a).Add S b).Orders = ((p.Add S b).Add S a).Orders :=
          strictAsc_perm_unique (p1.trans ((List.Perm.swap a b p.Orders).trans p2.symm))
            (Add_strictAsc S _ b (Add_strictAsc S p a h))
            (Add_strictAsc S _ a (Add_strictAsc S p b h))
        rw [Add_of_absent S (p.Add S a) b hb2, Add_of_absent S (p.Add S b) a ha2] at heq ⊢
        rw [Add_of_absent S p a ha1, Add_of_absent S p b hb1] at heq ⊢
        simp only at heq
        simp only [heq]
  exact ⟨key, by rw [key]⟩

/-- C15, at the level holding IDs 2 and 6, adding IDs 7 and 4 in both sequences. -/
theorem Add_order_of_arrival_witness :
    ((sampleLevel [2, 6]).Add goSort (sampleOrder 7)).Add goSort (sampleOrder 4) =
      ((sampleLevel [2, 6]).Add goSort (sampleOrder 4)).Add goSort (sampleOrder 7) ∧
    (((sampleLevel [2, 6]).Add goSort (sampleOrder 7)).Add goSort (sampleOrder 4)).Orders =
      (((sampleLevel [2, 6]).Add goSort (sampleOrder 4)).Add goSort (sampleOrder 7)).Orders :=
  Add_order_of_arrival goSort (sampleLevel [2, 6]) (sampleOrder 7) (sampleOrder 4)
    (by decide) (by decide)

/-- C16: on a level whose `Orders` are strictly ascending by `ID`, for an order
whose `ID` is not in the level, `Add` then `Remove` of that order returns and
gives back the level as it was: the same `Orders`, `Size`, `Top` and `Total`. -/
theorem Add_then_Remove_restores (S : SliceSorter) (p : PriceLevel) (o : Order)
    (h : StrictAsc p.Orders) (habs : ∀ x ∈ p.Orders, x.ID ≠ o.ID) :
    (p.Add S o).Remove o = some p ∧
    ((p.Add S o).Remove o).map PriceLevel.Orders = some p.Orders ∧
    ((p.Add S o).Remove o).map PriceLevel.Size = some p.Size ∧
    ((p.Add S o).Remove o).map PriceLevel.Top = some p.Top ∧
    ((p.Add S o).Remove o).map PriceLevel.Total = some p.Total := by
  have key : (p.Add S o).Remove o = some p := by
    have hs : StrictAsc (p.Add S o).Orders := Add_strictAsc S p o h
    obtain ⟨pre, x, post, hsplit, hx, hpre, hpost⟩ :=
      strictAsc_split (p.Add S o).Orders o.ID hs (Add_present_after S p o)
    rw [Remove_split (p.Add S o) o x pre post hsplit hx hpre hpost]
    have hperm : (pre ++ x :: post).Perm (o :: p.Orders) := by
      rw [← hsplit]; exact Add_perm_absent S p o habs
    have hxo : x = o := by
      have hmem : x ∈ o :: p.Orders := hperm.mem_iff.mp (by simp)
      rcases List.mem_cons.mp hmem with e | hx2
      · exact e
      · exact absurd hx (habs x hx2)
    subst hxo
    have hrest : (pre ++ post).Perm p.Orders :=
      List.Perm.cons_inv ((List.perm_middle.symm).trans hperm)
    have hsub : (pre ++ post).Sublist (pre ++ x :: post) :=
      List.Sublist.append_left (List.sublist_cons_self x post) pre
    have hs2 : StrictAsc (pre ++ post) := by
      unfold StrictAsc at hs ⊢
      rw [hsplit] at hs
      exact hs.sublist hsub
    rw [strictAsc_perm_unique hrest hs2 h, Add_of_absent S p x habs]
  rw [key]
  exact ⟨rfl, rfl, rfl, rfl, rfl⟩

/-- C16, at the level holding IDs 1 and 3 and a new order with ID 2. -/
theorem Add_then_Remove_restores_witness :
    ((sampleLevel [1, 3]).Add goSort (sampleOrder 2)).Remove (sampleOrder 2) =
      some (sampleLevel [1, 3]) ∧
    (((sampleLevel [1, 3]).Add goSort (sampleOrder 2)).Remove (sampleOrder 2)).map
      PriceLevel.Orders = some (sampleLevel [1, 3]).Orders ∧
    (((sampleLevel [1, 3]).Add goSort (sampleOrder 2)).Remove (sampleOrder 2)).map
      PriceLevel.Size = some (sampleLevel [1, 3]).Size ∧
    (((sampleLevel [1, 3]).Add goSort (sampleOrder 2)).Remove (sampleOrder 2)).map
      PriceLevel.Top = some (sampleLevel [1, 3]).Top ∧
    (((sampleLevel [1, 3]).Add goSort (sampleOrder 2)).Remove (sampleOrder 2)).map
      PriceLevel.Total = some (sampleLevel [1, 3]).Total :=
  Add_then_Remove_restores goSort (sampleLevel [1, 3]) (sampleOrder 2) (by decide) (by decide)

end Finex
